import Mathlib

/-!
A shallow embedding of the content-synchronization and change-notification
engine of the Quackademic-Excellence Discord bot (src/src/bot.js together
with the MongoDB-backed variant of the same file), and proofs about the
claims of the specification.

Strings of the JavaScript source are modelled as Lean `String` where only
equality matters and as `List Char` where slicing and regular-expression
style rewriting matter (JavaScript string indices are UTF-16 code units;
every character the normalizer can produce is ASCII, where the two notions
coincide).  JavaScript `toLowerCase` is modelled by the ASCII case mapping
`Char.toLower`.  Numbers that the source only ever uses as small integers
are modelled as `Nat`; the model is faithful up to 2 ^ 53, beyond which
JavaScript numbers stop being exact integers.
-/

/-! ## Message chunking (bot.js lines 308-341, 384-402 and 434-467)

Every send block shares the same loop:
  for (let i = 0; i < content.length; i += 1900) chunks.push(content.slice(i, i + 1900));
followed by: if there is no chunk, send one "No content found." embed,
otherwise send the chunks in order (chunk 0 with title and role mentions,
the rest as bare continuation embeds). -/

/-- The chunk loop: repeatedly take the next 1900 characters. -/
def chunks1900 : List Char → List (List Char)
  | [] => []
  | c :: cs => ((c :: cs).take 1900) :: chunks1900 ((c :: cs).drop 1900)
termination_by l => l.length
decreasing_by simp [List.length_drop]; omega

/-- The placeholder embed body used when the chunk list is empty. -/
def placeholderNoContent : List Char := "No content found.".toList

/-- The ordered embed bodies the send block produces for a given content. -/
def embedDescriptions (content : List Char) : List (List Char) :=
  match chunks1900 content with
  | [] => [placeholderNoContent]
  | cs => cs

/-! ## The wall-clock notification gate (unnamed part_000 lines 503-540)

`notificationScheduler` computes nowMinutes = hour*60 + minute in the
configured timezone (wall clock to America/Chicago conversion is an
environmental input, kept outside the model) and walks t = 15*60+33,
t += 30 while t <= 22*60, setting allowed when nowMinutes equals a probed
slot.  The loop makes at most 14 probes (t = 933, 963, ..., 1293, 1323);
the fuel below covers them exactly, and the characterization theorem proved
about the matcher would fail if the fuel ever ran out. -/

/-- The while loop of the matcher; fuel counts the remaining probes. -/
def allowedFromFuel : Nat → Nat → Nat → Bool
  | 0, _, _ => false
  | fuel + 1, m, t =>
      if t ≤ 22 * 60 then
        (if m = t then true else allowedFromFuel fuel m (t + 30))
      else false

/-- The schedule matcher on nowMinutes = hour*60 + minute. -/
def matchesSlot (m : Nat) : Bool := allowedFromFuel 14 m (15 * 60 + 33)

/-- The guarded check of `notificationScheduler`: the notification job runs
only when the minute matches and differs from `lastMinuteChecked`, and the
minute is recorded exactly when the job ran to completion.  (A job that
throws also kills the self-rescheduling chain, so a further check inside the
same minute only ever happens after a completed body.) -/
def schedulerCheck (lastMinuteChecked : Option Nat) (nowMinutes : Nat) :
    Bool × Option Nat :=
  if matchesSlot nowMinutes = true ∧ lastMinuteChecked ≠ some nowMinutes then
    (true, some nowMinutes)
  else
    (false, lastMinuteChecked)

/-- Number of notification passes run when the check executes `n` times while
the clock keeps reading the same minute `m`. -/
def runChecks (st : Option Nat) (m : Nat) : Nat → Nat
  | 0 => 0
  | n + 1 =>
      let r := schedulerCheck st m
      (if r.1 then 1 else 0) + runChecks r.2 m n

/-! ## ItemId normalization (bot.js lines 67-69)

  name.toLowerCase().replace(/[^a-z0-9]+/g, "_").replace(/^_+|_+$/g, "")
      .replace(/_+/g, "_").slice(0, 32)

Each replace is modelled by a structural pass: `collapseNonAlnum` rewrites
every maximal run of characters outside [a-z0-9] to one underscore,
`dropEdgeUnderscores` strips leading and trailing underscore runs, and
`collapseUnderscores` rewrites every maximal underscore run to one
underscore. -/

/-- Membership in the character class [a-z0-9]. -/
def isAlnum (c : Char) : Bool :=
  (('a' ≤ c && c ≤ 'z') || ('0' ≤ c && c ≤ '9'))

/-- replace(/[^a-z0-9]+/g, "_"): the flag records whether the current run of
non-alphanumeric characters has already emitted its underscore. -/
def collapseNonAlnum : Bool → List Char → List Char
  | _, [] => []
  | prevSep, c :: cs =>
      if isAlnum c then c :: collapseNonAlnum false cs
      else if prevSep then collapseNonAlnum true cs
      else '_' :: collapseNonAlnum true cs

/-- replace(/^_+|_+$/g, ""): strip leading and trailing underscore runs. -/
def dropEdgeUnderscores (l : List Char) : List Char :=
  ((l.dropWhile (fun c => c = '_')).reverse.dropWhile (fun c => c = '_')).reverse

/-- replace(/_+/g, "_"): collapse every underscore run to one underscore. -/
def collapseUnderscores : Bool → List Char → List Char
  | _, [] => []
  | prev, c :: cs =>
      if c = '_' then
        (if prev then collapseUnderscores true cs
         else '_' :: collapseUnderscores true cs)
      else c :: collapseUnderscores false cs

/-- normalizeDropdownName of bot.js: the full four-step pipeline. -/
def normalizeDropdownName (name : List Char) : List Char :=
  (collapseUnderscores false
    (dropEdgeUnderscores (collapseNonAlnum false (name.map Char.toLower)))).take 32

/-- Written after the words of the specification, for comparison with the
source pipeline: lowercase, collapse runs of non-alphanumeric characters to
one underscore, strip edge underscores, truncate to 32. -/
def specNormalize (name : List Char) : List Char :=
  (dropEdgeUnderscores (collapseNonAlnum false (name.map Char.toLower))).take 32

/-- No two adjacent underscores anywhere in the list. -/
def NoTwoUnd (l : List Char) : Prop :=
  l.Chain' (fun a b => ¬(a = '_' ∧ b = '_'))

/-! ## Tenant registry data (bot.js lines 108-128)

One record per guild: watched pages, per-page role subscribers, and the
configured channel.  Sets of the source are modelled as lists in insertion
order; maps and persisted stores as association lists. -/

structure TenantConfig where
  pages : List String
  roles : List (String × List String)
  channel : Option String
deriving DecidableEq

/-! ## The notification pass (bot.js lines 413-474; part_000 runNotificationJob
lines 442-501 is the same logic)

The pass walks all guild settings; for each guild whose gates are open
(channel configured, watch set non-empty, guild and text channel resolve) it
walks the watched pages.  A cache read error is caught per page and skipped.
When the read content is non-empty and differs from the dedup-ledger entry
of the (guild, page) pair the chunked notification is sent and then the
ledger entry is overwritten.  There is no try/catch around channel.send: a
send failure propagates out of both loops, so the model of a page step is an
`Option` (`none` = thrown) and the pass carries an ok flag.  Role mentions
only affect message text, never control flow, so deliveries are recorded as
(guild, page, content) events. -/

structure NotifyEnv where
  readCache : String → Option String
  guildExists : String → Bool
  channelIsText : String → String → Bool
  sendOk : String → String → Bool

structure NotifyState where
  ledger : List ((String × String) × String)
  sent : List (String × String × String)
deriving DecidableEq

/-- lastSentContent[guildId][pageName], absent entries read as none. -/
def ledgerLookup : List ((String × String) × String) → String → String → Option String
  | [], _, _ => none
  | e :: es, g, p => if e.1.1 = g ∧ e.1.2 = p then some e.2 else ledgerLookup es g p

/-- lastSentContent[guildId][pageName] = content. -/
def ledgerWrite : List ((String × String) × String) → String → String → String →
    List ((String × String) × String)
  | [], g, p, v => [((g, p), v)]
  | e :: es, g, p, v =>
      if e.1.1 = g ∧ e.1.2 = p then ((g, p), v) :: es else e :: ledgerWrite es g p v

/-- How many deliveries a state records for one (guild, page) pair. -/
def countSent (st : NotifyState) (g p : String) : Nat :=
  (st.sent.filter (fun e => decide (e.1 = g ∧ e.2.1 = p))).length

/-- One watched page of one guild: read the cache (read errors are caught
and the page skipped), fire the change gate, send (none = the send threw;
the ledger entry is written only after the sends). -/
def processPage (env : NotifyEnv) (g : String) (st : NotifyState) (p : String) :
    Option NotifyState :=
  match env.readCache p with
  | none => some st
  | some content =>
      if content ≠ "" ∧ ledgerLookup st.ledger g p ≠ some content then
        (if env.sendOk g p then
          some ⟨ledgerWrite st.ledger g p content, st.sent ++ [(g, p, content)]⟩
        else none)
      else some st

/-- The inner loop over the watch set of one guild; a thrown send stops the
loop and reports false. -/
def processPages (env : NotifyEnv) (g : String) :
    NotifyState → List String → NotifyState × Bool
  | st, [] => (st, true)
  | st, p :: ps =>
      match processPage env g st p with
      | some st1 => processPages env g st1 ps
      | none => (st, false)

/-- The continue-conditions at the top of the per-guild body: a configured
channel, a non-empty watch set, a resolvable guild, a text channel. -/
def tenantGatesOpen (env : NotifyEnv) (g : String) (cfg : TenantConfig) : Bool :=
  match cfg.channel with
  | none => false
  | some ch => !cfg.pages.isEmpty && env.guildExists g && env.channelIsText g ch

/-- The outer loop over all guild settings; a thrown send propagates. -/
def runNotificationJob (env : NotifyEnv) :
    NotifyState → List (String × TenantConfig) → NotifyState × Bool
  | st, [] => (st, true)
  | st, (g, cfg) :: rest =>
      if tenantGatesOpen env g cfg then
        (let r := processPages env g st cfg.pages
         if r.2 = true then runNotificationJob env r.1 rest else r)
      else runNotificationJob env st rest

/-- The pair (g, p) is reached by the pass: some entry of the registry is
guild g with open gates watching page p. -/
def tenantActiveB (env : NotifyEnv) (tenants : List (String × TenantConfig))
    (g p : String) : Bool :=
  tenants.any (fun t =>
    decide (t.1 = g) && tenantGatesOpen env t.1 t.2 && decide (p ∈ t.2.pages))

/-! ## Content cache refresh (bot.js lines 80-88; part_000 lines 99-106)

  for (const item of dropdownItems) {
    try { const content = await getContentForDropdownItem(page, item);
          await writeDropdownCache(item, content); } catch {}
  }

`fetch item = none` models a throw of the try block.  The catch block is
empty: the second component of the result collects whatever the handler
records about failed items, which is nothing.  The store is keyed by item
(part_000); bot.js keys files by the normalized name instead, which agrees
whenever distinct items have distinct keys. -/

/-- Upsert one key of an association-list store. -/
def storeWrite : List (String × String) → String → String → List (String × String)
  | [], k, v => [(k, v)]
  | e :: es, k, v => if e.1 = k then (k, v) :: es else e :: storeWrite es k v

/-- Read one key of an association-list store. -/
def storeRead : List (String × String) → String → Option String
  | [], _ => none
  | e :: es, k => if e.1 = k then some e.2 else storeRead es k

/-- updateAllDropdownCache: refresh every item, swallowing per-item failures;
returns the new cache and the recorded failures (always nothing). -/
def updateAllDropdownCache (fetch : String → Option String) :
    List String → List (String × String) → List (String × String) × List String
  | [], cache => (cache, [])
  | item :: items, cache =>
      match fetch item with
      | some content =>
          updateAllDropdownCache fetch items (storeWrite cache item content)
      | none => updateAllDropdownCache fetch items cache

/-! ## Settings mutations and persistence (bot.js lines 131-147 and 349-371)

The select-menu handler mutates the in-memory registry (pages, roles or
channel of one guild), replies with a success message, then awaits
saveSettings, which serializes the whole registry and writes it; the write
error is swallowed (catch with an empty comment body).  `persistOk = false`
models a failing write: the store keeps its old content and the handler
result is otherwise unchanged. -/

/-- Upsert one page of the per-page role map. -/
def rolesWrite : List (String × List String) → String → List String →
    List (String × List String)
  | [], k, v => [(k, v)]
  | e :: es, k, v => if e.1 = k then (k, v) :: es else e :: rolesWrite es k v

/-- Read one guild of the registry. -/
def regLookup : List (String × TenantConfig) → String → Option TenantConfig
  | [], _ => none
  | e :: es, g => if e.1 = g then some e.2 else regLookup es g

/-- Upsert one guild of the registry. -/
def regWrite : List (String × TenantConfig) → String → TenantConfig →
    List (String × TenantConfig)
  | [], g, v => [(g, v)]
  | e :: es, g, v => if e.1 = g then (g, v) :: es else e :: regWrite es g v

inductive MenuAction where
  | selectPages (values : List String)
  | selectRoles (values : List String)
  | selectChannel (values : List String)
deriving DecidableEq

/-- The three mutation branches of the handler, with the reply each sends:
select_pages replaces the watch set, select_roles overwrites the role set of
every currently watched page, select_channel stores values[0]. -/
def applyMenu (cfg : TenantConfig) : MenuAction → TenantConfig × String
  | .selectPages vs =>
      ({ cfg with pages := vs.eraseDups }, "Pages to monitor updated.")
  | .selectRoles vs =>
      ({ cfg with
          roles := cfg.pages.foldl (fun r p => rolesWrite r p vs.eraseDups)
            cfg.roles },
        "Roles to ping updated.")
  | .selectChannel vs =>
      ({ cfg with channel := vs.head? }, "Channel for updates set.")

/-- The lazily created default record: pages: new Set(), roles: obj empty,
channel: null. -/
def emptyConfig : TenantConfig := ⟨[], [], none⟩

/-- The whole select-menu mutation path: returns the new registry, the store
after the saveSettings attempt, and the reply text the caller observes. -/
def handleSelectMenu (reg : List (String × TenantConfig))
    (store : List (String × TenantConfig)) (g : String) (a : MenuAction)
    (persistOk : Bool) :
    List (String × TenantConfig) × List (String × TenantConfig) × String :=
  let settings := (regLookup reg g).getD emptyConfig
  let r := applyMenu settings a
  let reg2 := regWrite reg g r.1
  let store2 := if persistOk then reg2 else store
  (reg2, store2, r.2)

/-! ## Slash-command name generation (bot.js lines 168-195; part_000 lines
197-224)

Each dropdown item is normalized by the same pipeline as
`normalizeDropdownName`; while the candidate name is already used or empty
the loop tries name.slice(0, 32 - ("_" + suffix).length) + "_" + suffix for
suffix = 1, 2, ....  With JavaScript slice semantics a negative end counts
from the end of the string; `sliceTo` reproduces that.  The search is given
used.length + 1 probes, which the pigeonhole argument proved below shows is
always enough (candidates for distinct suffixes are distinct), so the
fuel-exhausted branch is never reached. -/

/-- The character of one decimal digit. -/
def digitChar (d : Nat) : Char := Char.ofNat (48 + d)

/-- The decimal digits of n, least significant first. -/
def toDigitsRev (n : Nat) : List Char :=
  if h : n < 10 then [digitChar n]
  else digitChar (n % 10) :: toDigitsRev (n / 10)
termination_by n
decreasing_by exact Nat.div_lt_self (by omega) (by omega)

/-- The decimal notation of n, as template literals print a small number. -/
def natDigits (n : Nat) : List Char := (toDigitsRev n).reverse

/-- The value a least-significant-first digit list denotes. -/
def fromDigitsRev : List Char → Nat
  | [] => 0
  | c :: cs => (c.toNat - 48) + 10 * fromDigitsRev cs

/-- slice(0, e) of JavaScript: a negative end counts from the end. -/
def sliceTo (l : List Char) (e : Int) : List Char :=
  l.take (if 0 ≤ e then e.toNat else ((l.length : Int) + e).toNat)

/-- name.slice(0, 32 - ("_" + k).length) + "_" + k. -/
def suffixCandidate (base : List Char) (k : Nat) : List Char :=
  sliceTo base (32 - (1 + (natDigits k).length : Int)) ++ '_' :: natDigits k

/-- The while loop of the name search, probing suffixes k, k+1, ... -/
def findFresh (used : List (List Char)) (base : List Char) : Nat → Nat → List Char
  | 0, k => suffixCandidate base k
  | fuel + 1, k =>
      let c := suffixCandidate base k
      if c ∈ used then findFresh used base fuel (k + 1) else c

/-- The unique name chosen for one item: the normalized base when it is
unused and non-empty, otherwise the first fresh suffixed candidate. -/
def pickName (used : List (List Char)) (base : List Char) : List Char :=
  if base ∉ used ∧ base ≠ [] then base
  else findFresh used base (used.length + 1) 1

/-- The registration fold: usedNames and commandNameToDropdownItem grow one
entry per item; the mapping is kept as ordered (name, item) pairs. -/
def genCommandsAux (used : List (List Char))
    (mapping : List (List Char × List Char)) :
    List (List Char) → List (List Char × List Char)
  | [] => mapping
  | item :: rest =>
      let name := pickName used (normalizeDropdownName item)
      genCommandsAux (used ++ [name]) (mapping ++ [(name, item)]) rest

/-- Command-name generation for the whole dropdown item list. -/
def genCommands (items : List (List Char)) : List (List Char × List Char) :=
  genCommandsAux [] [] items

/-! ## Concrete inputs used by witnesses and counterexamples. -/

def envW : NotifyEnv :=
  ⟨fun q => if q = "duckpage" then some "hello" else some "",
   fun _ => true, fun _ _ => true, fun _ _ => true⟩

def tenantsW : List (String × TenantConfig) :=
  [("guild1", ⟨["duckpage"], [("duckpage", ["role1"])], some "chan1"⟩)]

def st0W : NotifyState := ⟨[], []⟩

def envE : NotifyEnv :=
  ⟨fun _ => some "", fun _ => true, fun _ _ => true, fun _ _ => true⟩

def stE : NotifyState := ⟨[(("guild1", "duckpage"), "old")], []⟩

def envC2 : NotifyEnv :=
  ⟨fun q => if q = "page_a" then some "AAA" else
      (if q = "page_b" then some "BBB" else some ""),
   fun _ => true, fun _ _ => true,
   fun _ q => !(q = "page_a" : Bool)⟩

def tenantsC2 : List (String × TenantConfig) :=
  [("guild1", ⟨["page_a", "page_b"], [], some "chan1"⟩)]

def fetchC6 : String → Option String
  | "item1" => some "AAA"
  | "item2" => none
  | "item3" => some "CCC"
  | _ => none

def itemsC6 : List String := ["item1", "item2", "item3"]

def cacheC6 : List (String × String) := [("item2", "OLD")]

def regC9 : List (String × TenantConfig) := []

/-! # Theorems -/

/-! ## Chunking -/

theorem chunks1900_join : ∀ s : List Char, (chunks1900 s).flatten = s := by
  intro s
  induction s using chunks1900.induct with
  | case1 => simp [chunks1900]
  | case2 c cs ih =>
      rw [chunks1900]
      simp only [List.flatten_cons]
      rw [ih]
      exact List.take_append_drop _ _

theorem chunks1900_count :
    ∀ s : List Char, (chunks1900 s).length = (s.length + 1899) / 1900 := by
  intro s
  induction s using chunks1900.induct with
  | case1 => simp [chunks1900]
  | case2 c cs ih =>
      rw [chunks1900]
      simp only [List.length_cons, ih, List.length_drop]
      omega

theorem chunks1900_eq_nil : ∀ s : List Char, chunks1900 s = [] ↔ s = [] := by
  intro s
  cases s with
  | nil => simp [chunks1900]
  | cons c cs => simp [chunks1900]

/-- Claim C5: concatenating the ordered chunks produced for a string
reproduces the string exactly; the number of chunks is the ceiling of
length/1900 (0 chunks for the empty string), and the send block emits
exactly one "No content found." placeholder for empty content and exactly
the chunks otherwise. -/
theorem chunk_round_trip :
    ∀ s : List Char,
      (chunks1900 s).flatten = s ∧
      (chunks1900 s).length = (s.length + 1899) / 1900 ∧
      embedDescriptions s =
        (if s = [] then [placeholderNoContent] else chunks1900 s) := by
  intro s
  refine ⟨chunks1900_join s, chunks1900_count s, ?_⟩
  by_cases hs : s = []
  · subst hs
    rw [if_pos rfl]
    simp [embedDescriptions, chunks1900]
  · rw [if_neg hs, embedDescriptions]
    have : chunks1900 s ≠ [] := fun h => hs ((chunks1900_eq_nil s).mp h)
    cases hcs : chunks1900 s with
    | nil => exact absurd hcs this
    | cons a as => rfl

/-! ## The schedule matcher -/

/-- Claim C3, counterexample: the matcher returns false at 22:00 Central
(nowMinutes = 1320), although the claim asserts matches(22:00) = true.  The
slot sequence 933, 963, ... never hits 1320 because 1320 is not 3 modulo 30;
the loop bound t <= 22*60 only caps the sequence. -/
theorem matchesSlot_at_2200 : matchesSlot (22 * 60) = false := by decide

/-- Claim C3 (amended): the matcher returns true exactly on the arithmetic
sequence starting at 15:33 with step 30 bounded by 22:00, so
matches(15:33) = true, matches(16:00) = false, matches(16:03) = true,
matches(21:33) = true, and matches(22:00) = matches(22:30) = false. -/
theorem notification_window_matches :
    (∀ m : Nat, matchesSlot m = true ↔
      ∃ k, m = 15 * 60 + 33 + 30 * k ∧ m ≤ 22 * 60) ∧
    matchesSlot (15 * 60 + 33) = true ∧
    matchesSlot (16 * 60) = false ∧
    matchesSlot (16 * 60 + 3) = true ∧
    matchesSlot (21 * 60 + 33) = true ∧
    matchesSlot (22 * 60) = false ∧
    matchesSlot (22 * 60 + 30) = false := by
  refine ⟨?_, by decide, by decide, by decide, by decide, by decide, by decide⟩
  intro m
  have h : matchesSlot m = true ↔ (933 ≤ m ∧ m ≤ 1293 ∧ m % 30 = 3) := by
    simp only [matchesSlot, allowedFromFuel]
    norm_num
    omega
  rw [h]
  constructor
  · rintro ⟨h1, h2, h3⟩
    exact ⟨(m - 933) / 30, by omega, by omega⟩
  · rintro ⟨k, rfl, hle⟩
    omega

/-! ## The double-fire guard -/

theorem runChecks_same (m : Nat) : ∀ n, runChecks (some m) m n = 0 := by
  intro n
  induction n with
  | zero => rfl
  | succ n ih =>
      have h : schedulerCheck (some m) m = (false, some m) := by
        simp [schedulerCheck]
      simp only [runChecks, h]
      simpa using ih

/-- Claim C4: however many times the check executes while the clock keeps
reading one matching minute, the notification pass runs at most once; after
the first firing the recorded minute suppresses every further execution, and
a fresh matching minute fires exactly once. -/
theorem guard_at_most_once :
    ∀ (st : Option Nat) (m n : Nat),
      runChecks st m n ≤ 1 ∧
      (matchesSlot m = true → st ≠ some m → 1 ≤ n → runChecks st m n = 1) := by
  intro st m n
  constructor
  · induction n generalizing st with
    | zero => simp [runChecks]
    | succ n ih =>
        by_cases h : matchesSlot m = true ∧ st ≠ some m
        · have hs : schedulerCheck st m = (true, some m) := by
            simp only [schedulerCheck, if_pos h]
          simp [runChecks, hs, runChecks_same]
        · have hs : schedulerCheck st m = (false, st) := by
            simp only [schedulerCheck, if_neg h]
          simpa [runChecks, hs] using ih st
  · intro hm hne hn
    cases n with
    | zero => omega
    | succ n =>
        have hs : schedulerCheck st m = (true, some m) := by
          simp only [schedulerCheck, if_pos (And.intro hm hne)]
        simp [runChecks, hs, runChecks_same]

theorem guard_at_most_once_witness :
    matchesSlot 933 = true ∧ (none : Option Nat) ≠ some 933 ∧ 1 ≤ 3 ∧
      runChecks none 933 3 = 1 :=
  ⟨by decide, by decide, by decide,
    (guard_at_most_once none 933 3).2 (by decide) (by decide) (by decide)⟩

/-! ## ItemId normalization -/

theorem head_collapseNonAlnum_true :
    ∀ l : List Char, (collapseNonAlnum true l).head? ≠ some '_' := by
  intro l
  induction l with
  | nil => simp [collapseNonAlnum]
  | cons c cs ih =>
      by_cases h : isAlnum c = true
      · simp only [collapseNonAlnum, if_pos h, List.head?_cons]
        intro hc
        rw [Option.some.injEq] at hc
        subst hc
        simp [isAlnum] at h
      · simp only [collapseNonAlnum, if_neg h, if_pos rfl]
        exact ih

theorem noTwo_collapseNonAlnum :
    ∀ (l : List Char) (b : Bool), NoTwoUnd (collapseNonAlnum b l) := by
  intro l
  induction l with
  | nil => intro b; simp [collapseNonAlnum, NoTwoUnd]
  | cons c cs ih =>
      intro b
      by_cases h : isAlnum c = true
      · simp only [collapseNonAlnum, if_pos h]
        rw [NoTwoUnd, List.chain'_cons']
        refine ⟨?_, ih false⟩
        intro x hx hcx
        have hc : c ≠ '_' := by
          intro hc; subst hc; simp [isAlnum] at h
        exact hc hcx.1
      · cases b with
        | true =>
            simp only [collapseNonAlnum, if_neg h, if_pos rfl]
            exact ih true
        | false =>
            simp only [collapseNonAlnum, if_neg h]
            rw [if_neg (by simp)]
            rw [NoTwoUnd, List.chain'_cons']
            refine ⟨?_, ih true⟩
            intro x hx hcx
            have := head_collapseNonAlnum_true cs
            rw [hx] at this
            exact this (by rw [hcx.2])

theorem noTwo_dropWhile (p : Char → Bool) {l : List Char} (h : NoTwoUnd l) :
    NoTwoUnd (l.dropWhile p) :=
  List.Chain'.suffix h (List.dropWhile_suffix p)

theorem noTwo_reverse {l : List Char} (h : NoTwoUnd l) : NoTwoUnd l.reverse := by
  rw [NoTwoUnd, List.chain'_reverse]
  exact h.imp (fun a b hab ⟨h1, h2⟩ => hab ⟨h2, h1⟩)

theorem noTwo_dropEdge {l : List Char} (h : NoTwoUnd l) :
    NoTwoUnd (dropEdgeUnderscores l) :=
  noTwo_reverse (noTwo_dropWhile _ (noTwo_reverse (noTwo_dropWhile _ h)))

theorem collapseUnderscores_id :
    ∀ (l : List Char) (prev : Bool), NoTwoUnd l →
      (prev = true → l.head? ≠ some '_') → collapseUnderscores prev l = l := by
  intro l
  induction l with
  | nil => intro prev _ _; rfl
  | cons c cs ih =>
      intro prev hno hhead
      have htail : NoTwoUnd cs := by
        rw [NoTwoUnd] at hno ⊢
        exact hno.tail
      by_cases hc : c = '_'
      · subst hc
        cases prev with
        | true => exact absurd (rfl : ('_' :: cs).head? = some '_') (hhead rfl)
        | false =>
            have h1 : collapseUnderscores false ('_' :: cs) =
                '_' :: collapseUnderscores true cs := by
              simp [collapseUnderscores]
            rw [h1]
            congr 1
            refine ih true htail ?_
            intro _ hh
            rw [NoTwoUnd, List.chain'_cons'] at hno
            cases hcs : cs.head? with
            | none => rw [hcs] at hh; exact Option.noConfusion hh
            | some x =>
                rw [hcs] at hh
                rw [Option.some.injEq] at hh
                exact hno.1 x (by rw [hcs]; rfl) ⟨rfl, hh⟩
      · have h1 : collapseUnderscores prev (c :: cs) =
            c :: collapseUnderscores false cs := by
          simp [collapseUnderscores, hc]
        rw [h1]
        congr 1
        exact ih false htail (fun h => absurd h (by simp))

/-- Claim C8: normalization is a pure function of the label (two equal
labels give one result by definition), its result is the lowercased label
with every run of non-alphanumeric characters collapsed to one underscore,
edge underscores stripped and the rest truncated to 32 characters (the
follow-up underscore-collapsing replace of the source changes nothing), and
the result never exceeds 32 characters. -/
theorem normalize_matches_spec :
    ∀ name : List Char,
      normalizeDropdownName name = specNormalize name ∧
      (normalizeDropdownName name).length ≤ 32 := by
  intro name
  have hmain : collapseUnderscores false
      (dropEdgeUnderscores (collapseNonAlnum false (name.map Char.toLower))) =
      dropEdgeUnderscores (collapseNonAlnum false (name.map Char.toLower)) := by
    refine collapseUnderscores_id _ false ?_ (fun h => absurd h (by simp))
    exact noTwo_dropEdge (noTwo_collapseNonAlnum _ false)
  constructor
  · rw [normalizeDropdownName, specNormalize, hmain]
  · rw [normalizeDropdownName]
    simp [List.length_take]

/-! ## The notification pass: ledger and delivery lemmas -/

theorem ledgerLookup_write_self (L : List ((String × String) × String))
    (g p v : String) : ledgerLookup (ledgerWrite L g p v) g p = some v := by
  induction L with
  | nil => simp [ledgerWrite, ledgerLookup]
  | cons e es ih =>
      by_cases h : e.1.1 = g ∧ e.1.2 = p
      · simp [ledgerWrite, ledgerLookup, h]
      · simp only [ledgerWrite, if_neg h, ledgerLookup]
        exact ih

theorem ledgerLookup_write_other (L : List ((String × String) × String))
    (g p v g2 p2 : String) (hne : ¬(g = g2 ∧ p = p2)) :
    ledgerLookup (ledgerWrite L g p v) g2 p2 = ledgerLookup L g2 p2 := by
  induction L with
  | nil => simp [ledgerWrite, ledgerLookup, hne]
  | cons e es ih =>
      by_cases h : e.1.1 = g ∧ e.1.2 = p
      · simp only [ledgerWrite, if_pos h, ledgerLookup]
        rw [if_neg (by tauto), if_neg (by rw [h.1, h.2]; tauto)]
      · simp only [ledgerWrite, if_neg h, ledgerLookup]
        by_cases h2 : e.1.1 = g2 ∧ e.1.2 = p2
        · rw [if_pos h2, if_pos h2]
        · rw [if_neg h2, if_neg h2]
          exact ih

theorem countSent_append_other (st : NotifyState) (g p a b c : String)
    (hne : ¬(a = g ∧ b = p)) :
    countSent ⟨st.ledger, st.sent ++ [(a, b, c)]⟩ g p = countSent st g p := by
  simp [countSent, List.filter_append, hne]

theorem countSent_append_self (st : NotifyState)
    (L : List ((String × String) × String)) (g p c : String) :
    countSent ⟨L, st.sent ++ [(g, p, c)]⟩ g p = countSent st g p + 1 := by
  simp [countSent, List.filter_append]

theorem processPage_other (env : NotifyEnv) (g q : String) (st st1 : NotifyState)
    (gK pK : String) (hne : ¬(g = gK ∧ q = pK))
    (h : processPage env g st q = some st1) :
    ledgerLookup st1.ledger gK pK = ledgerLookup st.ledger gK pK ∧
      countSent st1 gK pK = countSent st gK pK := by
  cases hr : env.readCache q with
  | none =>
      simp only [processPage, hr] at h
      cases h
      exact ⟨rfl, rfl⟩
  | some content =>
      simp only [processPage, hr] at h
      by_cases h1 : content ≠ "" ∧ ledgerLookup st.ledger g q ≠ some content
      · rw [if_pos h1] at h
        by_cases h2 : env.sendOk g q = true
        · rw [if_pos h2] at h
          cases h
          refine ⟨ledgerLookup_write_other _ _ _ _ _ _ hne, ?_⟩
          exact countSent_append_other st gK pK g q content hne
        · rw [if_neg h2] at h
          exact Option.noConfusion h
      · rw [if_neg h1] at h
        cases h
        exact ⟨rfl, rfl⟩

theorem processPage_key (env : NotifyEnv) (st st1 : NotifyState) (gK pK c : String)
    (hr : env.readCache pK = some c) (hc : c ≠ "")
    (h : processPage env gK st pK = some st1) :
    ledgerLookup st1.ledger gK pK = some c ∧
      countSent st1 gK pK =
        countSent st gK pK +
          (if ledgerLookup st.ledger gK pK = some c then 0 else 1) := by
  simp only [processPage, hr] at h
  by_cases h1 : c ≠ "" ∧ ledgerLookup st.ledger gK pK ≠ some c
  · rw [if_pos h1] at h
    by_cases h2 : env.sendOk gK pK = true
    · rw [if_pos h2] at h
      cases h
      refine ⟨ledgerLookup_write_self _ _ _ _, ?_⟩
      rw [if_neg h1.2]
      exact countSent_append_self st _ gK pK c
    · rw [if_neg h2] at h
      exact Option.noConfusion h
  · rw [if_neg h1] at h
    cases h
    have heq : ledgerLookup st.ledger gK pK = some c := by
      by_contra hcon
      exact h1 ⟨hc, hcon⟩
    rw [if_pos heq]
    exact ⟨heq, rfl⟩

theorem processPage_total (env : NotifyEnv) (g q : String) (st : NotifyState)
    (hall : ∀ a b, env.sendOk a b = true) :
    ∃ st1, processPage env g st q = some st1 := by
  cases hr : env.readCache q with
  | none => exact ⟨st, by simp only [processPage, hr]⟩
  | some content =>
      simp only [processPage, hr]
      by_cases h1 : content ≠ "" ∧ ledgerLookup st.ledger g q ≠ some content
      · rw [if_pos h1, if_pos (hall g q)]
        exact ⟨_, rfl⟩
      · rw [if_neg h1]
        exact ⟨st, rfl⟩

theorem processPages_facts (env : NotifyEnv) (gK pK c : String)
    (hall : ∀ a b, env.sendOk a b = true)
    (hr : env.readCache pK = some c) (hc : c ≠ "") :
    ∀ (ps : List String) (g : String) (st : NotifyState),
      (processPages env g st ps).2 = true ∧
      ledgerLookup (processPages env g st ps).1.ledger gK pK =
        (if g = gK ∧ pK ∈ ps then some c else ledgerLookup st.ledger gK pK) ∧
      countSent (processPages env g st ps).1 gK pK =
        countSent st gK pK +
          (if g = gK ∧ pK ∈ ps ∧ ledgerLookup st.ledger gK pK ≠ some c then 1
           else 0) := by
  intro ps
  induction ps with
  | nil =>
      intro g st
      simp [processPages]
  | cons q ps ih =>
      intro g st
      obtain ⟨st1, hst1⟩ := processPage_total env g q st hall
      have hred : processPages env g st (q :: ps) = processPages env g st1 ps := by
        simp only [processPages, hst1]
      rw [hred]
      obtain ⟨hok, hledger, hcount⟩ := ih g st1
      refine ⟨hok, ?_, ?_⟩
      · rw [hledger]
        by_cases hkey : g = gK ∧ q = pK
        · obtain ⟨hg, hq⟩ := hkey
          subst hg; subst hq
          have hk := processPage_key env st st1 g q c hr hc hst1
          by_cases hmem : q ∈ ps
          · simp [hmem, hk.1]
          · simp [hmem, hk.1]
        · have ho := processPage_other env g q st st1 gK pK hkey hst1
          rw [ho.1]
          by_cases hg : g = gK
          · subst hg
            have hqne : q ≠ pK := fun hq => hkey ⟨rfl, hq⟩
            by_cases hmem : pK ∈ ps
            · simp [hmem, hqne]
            · simp [hmem, hqne, Ne.symm hqne]
          · simp [hg]
      · rw [hcount]
        by_cases hkey : g = gK ∧ q = pK
        · obtain ⟨hg, hq⟩ := hkey
          subst hg; subst hq
          have hk := processPage_key env st st1 g q c hr hc hst1
          rw [hk.2, hk.1]
          by_cases hlk : ledgerLookup st.ledger g q = some c
          · simp [hlk]
          · simp [hlk]
        · have ho := processPage_other env g q st st1 gK pK hkey hst1
          rw [ho.1, ho.2]
          by_cases hg : g = gK
          · subst hg
            have hqne : q ≠ pK := fun hq => hkey ⟨rfl, hq⟩
            have hmemiff : pK ∈ q :: ps ↔ pK ∈ ps := by
              simp [Ne.symm hqne]
            by_cases hmem : pK ∈ ps
            · simp [hmem, hmemiff]
            · simp [hmem, hmemiff]
          · simp [hg]

theorem runJob_facts (env : NotifyEnv) (gK pK c : String)
    (hall : ∀ a b, env.sendOk a b = true)
    (hr : env.readCache pK = some c) (hc : c ≠ "") :
    ∀ (tenants : List (String × TenantConfig)) (st : NotifyState),
      (runNotificationJob env st tenants).2 = true ∧
      ledgerLookup (runNotificationJob env st tenants).1.ledger gK pK =
        (if tenantActiveB env tenants gK pK = true then some c
         else ledgerLookup st.ledger gK pK) ∧
      countSent (runNotificationJob env st tenants).1 gK pK =
        countSent st gK pK +
          (if tenantActiveB env tenants gK pK = true ∧
              ledgerLookup st.ledger gK pK ≠ some c then 1
           else 0) := by
  intro tenants
  induction tenants with
  | nil =>
      intro st
      simp [runNotificationJob, tenantActiveB]
  | cons t rest ih =>
      intro st
      obtain ⟨g, cfg⟩ := t
      by_cases hgate : tenantGatesOpen env g cfg = true
      · obtain ⟨hok, hledger, hcount⟩ :=
          processPages_facts env gK pK c hall hr hc cfg.pages g st
        have hred : runNotificationJob env st ((g, cfg) :: rest) =
            runNotificationJob env (processPages env g st cfg.pages).1 rest := by
          simp only [runNotificationJob, if_pos hgate]
          rw [if_pos hok]
        rw [hred]
        obtain ⟨hok2, hledger2, hcount2⟩ := ih (processPages env g st cfg.pages).1
        have hact : (tenantActiveB env ((g, cfg) :: rest) gK pK = true) ↔
            ((g = gK ∧ pK ∈ cfg.pages) ∨ tenantActiveB env rest gK pK = true) := by
          simp [tenantActiveB, List.any_cons, hgate, and_assoc]
        refine ⟨hok2, ?_, ?_⟩
        · rw [hledger2, hledger]
          by_cases hhead : g = gK ∧ pK ∈ cfg.pages
          · rw [if_pos hhead]
            by_cases hrest : tenantActiveB env rest gK pK = true
            · rw [if_pos hrest, if_pos (hact.mpr (Or.inl hhead))]
            · rw [if_neg hrest, if_pos (hact.mpr (Or.inl hhead))]
          · rw [if_neg hhead]
            by_cases hrest : tenantActiveB env rest gK pK = true
            · rw [if_pos hrest, if_pos (hact.mpr (Or.inr hrest))]
            · rw [if_neg hrest,
                if_neg (fun hx => (hact.mp hx).elim hhead hrest)]
        · rw [hcount2, hledger, hcount]
          by_cases hhead : g = gK ∧ pK ∈ cfg.pages
          · rw [if_pos hhead]
            have h2 : ¬(tenantActiveB env rest gK pK = true ∧
                (some c : Option String) ≠ some c) := fun hx => hx.2 rfl
            rw [if_neg h2]
            by_cases hlk : ledgerLookup st.ledger gK pK = some c
            · have c3 : ¬(g = gK ∧ pK ∈ cfg.pages ∧
                  ledgerLookup st.ledger gK pK ≠ some c) := fun hx => hx.2.2 hlk
              have cr : ¬(tenantActiveB env ((g, cfg) :: rest) gK pK = true ∧
                  ledgerLookup st.ledger gK pK ≠ some c) := fun hx => hx.2 hlk
              rw [if_neg c3, if_neg cr]
            · have c3 : g = gK ∧ pK ∈ cfg.pages ∧
                  ledgerLookup st.ledger gK pK ≠ some c := ⟨hhead.1, hhead.2, hlk⟩
              rw [if_pos c3, if_pos ⟨hact.mpr (Or.inl hhead), hlk⟩]
          · rw [if_neg hhead]
            have c3 : ¬(g = gK ∧ pK ∈ cfg.pages ∧
                ledgerLookup st.ledger gK pK ≠ some c) :=
              fun hx => hhead ⟨hx.1, hx.2.1⟩
            rw [if_neg c3]
            by_cases hrest : tenantActiveB env rest gK pK = true
            · by_cases hlk : ledgerLookup st.ledger gK pK = some c
              · have d1 : ¬(tenantActiveB env rest gK pK = true ∧
                    ledgerLookup st.ledger gK pK ≠ some c) := fun hx => hx.2 hlk
                have d2 : ¬(tenantActiveB env ((g, cfg) :: rest) gK pK = true ∧
                    ledgerLookup st.ledger gK pK ≠ some c) := fun hx => hx.2 hlk
                rw [if_neg d1, if_neg d2]
              · rw [if_pos ⟨hrest, hlk⟩,
                  if_pos ⟨hact.mpr (Or.inr hrest), hlk⟩]
            · have d1 : ¬(tenantActiveB env rest gK pK = true ∧
                  ledgerLookup st.ledger gK pK ≠ some c) := fun hx => hrest hx.1
              have d2 : ¬(tenantActiveB env ((g, cfg) :: rest) gK pK = true ∧
                  ledgerLookup st.ledger gK pK ≠ some c) :=
                fun hx => (hact.mp hx.1).elim hhead hrest
              rw [if_neg d1, if_neg d2]
      · have hred : runNotificationJob env st ((g, cfg) :: rest) =
            runNotificationJob env st rest := by
          simp only [runNotificationJob, if_neg hgate]
        rw [hred]
        have hact : tenantActiveB env ((g, cfg) :: rest) gK pK =
            tenantActiveB env rest gK pK := by
          simp only [tenantActiveB, List.any_cons]
          have hgf : tenantGatesOpen env g cfg = false := by
            simpa using hgate
          simp [hgf]
        rw [hact]
        exact ih st

/-- Claim C1: with successful delivery and a fixed non-empty cached content
c for page p, a (tenant, item) pair that the pass reaches and whose ledger
entry is absent or differs from c is delivered exactly once on the first of
two consecutive passes (a freshly subscribed pair has no ledger entry and is
such a pair), and the second pass sends nothing for that pair. -/
theorem notify_two_pass_once (env : NotifyEnv)
    (tenants : List (String × TenantConfig)) (st0 : NotifyState) (g p c : String)
    (hall : ∀ a b, env.sendOk a b = true)
    (hr : env.readCache p = some c) (hc : c ≠ "")
    (hactive : tenantActiveB env tenants g p = true)
    (hpending : ledgerLookup st0.ledger g p ≠ some c) :
    countSent (runNotificationJob env st0 tenants).1 g p =
        countSent st0 g p + 1 ∧
      countSent
          (runNotificationJob env (runNotificationJob env st0 tenants).1
            tenants).1 g p =
        countSent (runNotificationJob env st0 tenants).1 g p := by
  obtain ⟨hok1, hled1, hcnt1⟩ := runJob_facts env g p c hall hr hc tenants st0
  obtain ⟨hok2, hled2, hcnt2⟩ :=
    runJob_facts env g p c hall hr hc tenants (runNotificationJob env st0 tenants).1
  constructor
  · rw [hcnt1, if_pos ⟨hactive, hpending⟩]
  · rw [hcnt2]
    have hl : ledgerLookup (runNotificationJob env st0 tenants).1.ledger g p =
        some c := by
      rw [hled1, if_pos hactive]
    rw [if_neg (fun hx => hx.2 hl)]
    omega

theorem notify_two_pass_once_witness :
    countSent (runNotificationJob envW st0W tenantsW).1 "guild1" "duckpage" =
        countSent st0W "guild1" "duckpage" + 1 ∧
      countSent
          (runNotificationJob envW (runNotificationJob envW st0W tenantsW).1
            tenantsW).1 "guild1" "duckpage" =
        countSent (runNotificationJob envW st0W tenantsW).1 "guild1" "duckpage" :=
  notify_two_pass_once envW tenantsW st0W "guild1" "duckpage" "hello"
    (fun _ _ => rfl) (by decide) (by decide) (by decide) (by decide)

/-! ## Empty content never fires -/

theorem processPage_empty (env : NotifyEnv) (h : String) (st : NotifyState)
    (p : String) (hr : env.readCache p = some "") :
    processPage env h st p = some st := by
  simp only [processPage, hr]
  rw [if_neg (fun hx => hx.1 rfl)]

theorem processPage_preserves (env : NotifyEnv) (h q : String)
    (st st1 : NotifyState) (gK pK : String) (hr : env.readCache pK = some "")
    (hstep : processPage env h st q = some st1) :
    ledgerLookup st1.ledger gK pK = ledgerLookup st.ledger gK pK ∧
      countSent st1 gK pK = countSent st gK pK := by
  by_cases hkey : h = gK ∧ q = pK
  · rw [hkey.2] at hstep
    rw [processPage_empty env h st pK hr] at hstep
    cases hstep
    exact ⟨rfl, rfl⟩
  · exact processPage_other env h q st st1 gK pK hkey hstep

theorem processPages_preserves (env : NotifyEnv) (gK pK : String)
    (hr : env.readCache pK = some "") :
    ∀ (ps : List String) (g : String) (st : NotifyState),
      ledgerLookup (processPages env g st ps).1.ledger gK pK =
          ledgerLookup st.ledger gK pK ∧
        countSent (processPages env g st ps).1 gK pK = countSent st gK pK := by
  intro ps
  induction ps with
  | nil => intro g0 st; exact ⟨rfl, rfl⟩
  | cons q ps ih =>
      intro g st
      cases hstep : processPage env g st q with
      | none => simp [processPages, hstep]
      | some st1 =>
          have hone := processPage_preserves env g q st st1 gK pK hr hstep
          have := ih g st1
          simp only [processPages, hstep]
          exact ⟨this.1.trans hone.1, this.2.trans hone.2⟩

theorem runJob_preserves (env : NotifyEnv) (gK pK : String)
    (hr : env.readCache pK = some "") :
    ∀ (tenants : List (String × TenantConfig)) (st : NotifyState),
      ledgerLookup (runNotificationJob env st tenants).1.ledger gK pK =
          ledgerLookup st.ledger gK pK ∧
        countSent (runNotificationJob env st tenants).1 gK pK =
          countSent st gK pK := by
  intro tenants
  induction tenants with
  | nil => intro st; exact ⟨rfl, rfl⟩
  | cons t rest ih =>
      intro st
      obtain ⟨g, cfg⟩ := t
      by_cases hgate : tenantGatesOpen env g cfg = true
      · have hpp := processPages_preserves env gK pK hr cfg.pages g st
        cases hres : processPages env g st cfg.pages with
        | mk st1 ok =>
            rw [hres] at hpp
            cases ok with
            | true =>
                have hred : runNotificationJob env st ((g, cfg) :: rest) =
                    runNotificationJob env st1 rest := by
                  simp only [runNotificationJob, if_pos hgate, hres]
                  simp
                rw [hred]
                have := ih st1
                exact ⟨this.1.trans hpp.1, this.2.trans hpp.2⟩
            | false =>
                have hred : runNotificationJob env st ((g, cfg) :: rest) =
                    (st1, false) := by
                  simp only [runNotificationJob, if_pos hgate, hres]
                  simp
                rw [hred]
                exact hpp
      · have hred : runNotificationJob env st ((g, cfg) :: rest) =
            runNotificationJob env st rest := by
          simp only [runNotificationJob, if_neg hgate]
        rw [hred]
        exact ih st

/-- Claim C7: during a notification pass, a (tenant, item) pair whose current
cached content is the empty string triggers no delivery and leaves the
ledger entry of the pair exactly as it was, whatever it was (absent, empty
or non-empty) and whatever the rest of the pass does. -/
theorem notify_empty_content_frame (env : NotifyEnv)
    (tenants : List (String × TenantConfig)) (st : NotifyState) (g p : String)
    (hr : env.readCache p = some "") :
    countSent (runNotificationJob env st tenants).1 g p = countSent st g p ∧
      ledgerLookup (runNotificationJob env st tenants).1.ledger g p =
        ledgerLookup st.ledger g p :=
  ⟨(runJob_preserves env g p hr tenants st).2,
   (runJob_preserves env g p hr tenants st).1⟩

theorem notify_empty_content_frame_witness :
    countSent (runNotificationJob envE stE tenantsW).1 "guild1" "duckpage" =
        countSent stE "guild1" "duckpage" ∧
      ledgerLookup (runNotificationJob envE stE tenantsW).1.ledger
          "guild1" "duckpage" =
        ledgerLookup stE.ledger "guild1" "duckpage" :=
  notify_empty_content_frame envE tenantsW stE "guild1" "duckpage" rfl

/-! ## Delivery failure -/

/-- Claim C2, counterexample: guild1 watches page_a and page_b, both with
pending changes; the send for page_a fails.  The pass returns with nothing
sent and nothing written to the ledger: page_b is not processed although its
own delivery would have succeeded, refuting that a failure is caught at the
granularity of one pair and the remaining pairs still processed. -/
theorem notify_send_failure_counterexample :
    runNotificationJob envC2 st0W tenantsC2 = (st0W, false) ∧
      countSent (runNotificationJob envC2 st0W tenantsC2).1 "guild1" "page_b" = 0 ∧
      (runNotificationJob envC2 st0W tenantsC2).1.sent = [] := by
  refine ⟨?_, ?_, ?_⟩ <;> decide

/-- Claim C2 (amended): when the delivery for a (tenant, item) pair with a
pending change fails, the ledger entry of the pair is not updated, so the
change is retried on the next pass; but the failure is not caught — the
exception aborts the pass, so the remaining pairs of the tenant and all
remaining tenants are not processed in that pass (the state is returned
exactly as it was before the failing pair). -/
theorem notify_send_failure_aborts (env : NotifyEnv) (g : String)
    (cfg : TenantConfig) (ch q c : String) (ps : List String)
    (rest : List (String × TenantConfig)) (st : NotifyState)
    (hch : cfg.channel = some ch)
    (hguild : env.guildExists g = true)
    (htext : env.channelIsText g ch = true)
    (hpages : cfg.pages = q :: ps)
    (hr : env.readCache q = some c) (hc : c ≠ "")
    (hpending : ledgerLookup st.ledger g q ≠ some c)
    (hfail : env.sendOk g q = false) :
    runNotificationJob env st ((g, cfg) :: rest) = (st, false) := by
  have hgate : tenantGatesOpen env g cfg = true := by
    simp [tenantGatesOpen, hch, hpages, hguild, htext]
  have hpage : processPage env g st q = none := by
    simp only [processPage, hr]
    rw [if_pos ⟨hc, hpending⟩, if_neg (by simp [hfail])]
  have hpp : processPages env g st cfg.pages = (st, false) := by
    rw [hpages]
    simp only [processPages, hpage]
  simp only [runNotificationJob, if_pos hgate, hpp]
  simp

theorem notify_send_failure_aborts_witness :
    runNotificationJob envC2 st0W tenantsC2 = (st0W, false) :=
  notify_send_failure_aborts envC2 "guild1"
    ⟨["page_a", "page_b"], [], some "chan1"⟩
    "chan1" "page_a" "AAA" ["page_b"] [] st0W rfl rfl rfl rfl rfl (by decide)
    (by decide) rfl

/-! ## Cache refresh -/

theorem storeRead_write_self (c : List (String × String)) (k v : String) :
    storeRead (storeWrite c k v) k = some v := by
  induction c with
  | nil => simp [storeWrite, storeRead]
  | cons e es ih =>
      by_cases h : e.1 = k
      · simp [storeWrite, storeRead, h]
      · simp only [storeWrite, if_neg h, storeRead]
        exact ih

theorem storeRead_write_other (c : List (String × String)) (k v k2 : String)
    (hne : k ≠ k2) : storeRead (storeWrite c k v) k2 = storeRead c k2 := by
  induction c with
  | nil => simp [storeWrite, storeRead, hne]
  | cons e es ih =>
      by_cases h : e.1 = k
      · simp only [storeWrite, if_pos h, storeRead]
        rw [if_neg hne, if_neg (h ▸ hne)]
      · simp only [storeWrite, if_neg h, storeRead]
        by_cases h2 : e.1 = k2
        · rw [if_pos h2, if_pos h2]
        · rw [if_neg h2, if_neg h2]
          exact ih

theorem updateAll_read (fetch : String → Option String) :
    ∀ (items : List String) (cache : List (String × String)) (j : String),
      storeRead (updateAllDropdownCache fetch items cache).1 j =
        (if j ∈ items ∧ (fetch j).isSome = true then fetch j
         else storeRead cache j) := by
  intro items
  induction items with
  | nil =>
      intro cache j
      simp [updateAllDropdownCache]
  | cons item items ih =>
      intro cache j
      by_cases hj : j = item
      · subst hj
        cases hf : fetch j with
        | some content =>
            have hred : updateAllDropdownCache fetch (j :: items) cache =
                updateAllDropdownCache fetch items (storeWrite cache j content) := by
              simp only [updateAllDropdownCache, hf]
            rw [hred, ih]
            by_cases hmem : j ∈ items
            · simp [hmem, hf]
            · simp [hmem, hf, storeRead_write_self]
        | none =>
            have hred : updateAllDropdownCache fetch (j :: items) cache =
                updateAllDropdownCache fetch items cache := by
              simp only [updateAllDropdownCache, hf]
            rw [hred, ih]
            simp [hf]
      · have hro : ∀ content, storeRead (storeWrite cache item content) j =
            storeRead cache j :=
          fun content =>
            storeRead_write_other cache item content j (fun he => hj he.symm)
        cases hf : fetch item with
        | some content =>
            have hred : updateAllDropdownCache fetch (item :: items) cache =
                updateAllDropdownCache fetch items (storeWrite cache item content) := by
              simp only [updateAllDropdownCache, hf]
            rw [hred, ih, hro content]
            by_cases hc : j ∈ items ∧ (fetch j).isSome = true
            · rw [if_pos hc, if_pos ⟨List.mem_cons_of_mem item hc.1, hc.2⟩]
            · rw [if_neg hc,
                if_neg (fun hx => hc ⟨(List.mem_cons.mp hx.1).resolve_left hj, hx.2⟩)]
        | none =>
            have hred : updateAllDropdownCache fetch (item :: items) cache =
                updateAllDropdownCache fetch items cache := by
              simp only [updateAllDropdownCache, hf]
            rw [hred, ih]
            by_cases hc : j ∈ items ∧ (fetch j).isSome = true
            · rw [if_pos hc, if_pos ⟨List.mem_cons_of_mem item hc.1, hc.2⟩]
            · rw [if_neg hc,
                if_neg (fun hx => hc ⟨(List.mem_cons.mp hx.1).resolve_left hj, hx.2⟩)]

theorem updateAll_no_report (fetch : String → Option String) :
    ∀ (items : List String) (cache : List (String × String)),
      (updateAllDropdownCache fetch items cache).2 = [] := by
  intro items
  induction items with
  | nil => intro cache; rfl
  | cons item items ih =>
      intro cache
      cases hf : fetch item with
      | some content =>
          simp only [updateAllDropdownCache, hf]
          exact ih _
      | none =>
          simp only [updateAllDropdownCache, hf]
          exact ih _

/-- Claim C6, counterexample: with three items of which the fetch of item2
fails, the refresh updates item1 and item3 and leaves the old entry of item2
untouched — but item2 is reported nowhere: the exception handler is empty,
so the recorded failure list is empty and does not contain item2, refuting
that a failed item is recorded in a failure list. -/
theorem refresh_report_counterexample :
    (updateAllDropdownCache fetchC6 itemsC6 cacheC6).2 = [] ∧
      ¬("item2" ∈ (updateAllDropdownCache fetchC6 itemsC6 cacheC6).2) ∧
      storeRead (updateAllDropdownCache fetchC6 itemsC6 cacheC6).1 "item1" =
        some "AAA" ∧
      storeRead (updateAllDropdownCache fetchC6 itemsC6 cacheC6).1 "item2" =
        some "OLD" ∧
      storeRead (updateAllDropdownCache fetchC6 itemsC6 cacheC6).1 "item3" =
        some "CCC" := by
  refine ⟨?_, ?_, ?_, ?_, ?_⟩ <;> decide

/-- Claim C6 (amended): a fetch failure for one item leaves the previous
cache entry of that item untouched and does not abort the refresh of the
remaining items — every item whose fetch succeeds is updated to the fetched
value — but the failure is swallowed silently: nothing records the failed
item, there is no failure list. -/
theorem refresh_isolation (fetch : String → Option String)
    (items : List String) (cache : List (String × String)) :
    (∀ i, fetch i = none →
      storeRead (updateAllDropdownCache fetch items cache).1 i =
        storeRead cache i) ∧
    (∀ j v, j ∈ items → fetch j = some v →
      storeRead (updateAllDropdownCache fetch items cache).1 j = some v) ∧
    (updateAllDropdownCache fetch items cache).2 = [] := by
  refine ⟨?_, ?_, updateAll_no_report fetch items cache⟩
  · intro i hi
    rw [updateAll_read fetch items cache i]
    rw [if_neg (by simp [hi])]
  · intro j v hj hfv
    rw [updateAll_read fetch items cache j]
    rw [if_pos ⟨hj, by simp [hfv]⟩, hfv]

theorem refresh_isolation_witness :
    storeRead (updateAllDropdownCache fetchC6 itemsC6 cacheC6).1 "item2" =
        storeRead cacheC6 "item2" ∧
      storeRead (updateAllDropdownCache fetchC6 itemsC6 cacheC6).1 "item3" =
        some "CCC" ∧
      (updateAllDropdownCache fetchC6 itemsC6 cacheC6).2 = [] :=
  ⟨(refresh_isolation fetchC6 itemsC6 cacheC6).1 "item2" rfl,
   (refresh_isolation fetchC6 itemsC6 cacheC6).2.1 "item3" "CCC" (by decide) rfl,
   (refresh_isolation fetchC6 itemsC6 cacheC6).2.2⟩

/-! ## Settings persistence -/

theorem regLookup_write_self (reg : List (String × TenantConfig)) (g : String)
    (v : TenantConfig) : regLookup (regWrite reg g v) g = some v := by
  induction reg with
  | nil => simp [regWrite, regLookup]
  | cons e es ih =>
      by_cases h : e.1 = g
      · simp [regWrite, regLookup, h]
      · simp only [regWrite, if_neg h, regLookup]
        exact ih

/-- Claim C9, counterexample: a select_pages mutation whose persistence
fails produces exactly the success reply of the succeeding run — no
PersistenceError reaches the caller — while the in-memory registry is
updated and the store keeps its old content. -/
theorem settings_no_error_counterexample :
    (handleSelectMenu regC9 regC9 "guild1" (.selectPages ["pg"]) false).2.2 =
        (handleSelectMenu regC9 regC9 "guild1" (.selectPages ["pg"]) true).2.2 ∧
      (handleSelectMenu regC9 regC9 "guild1" (.selectPages ["pg"]) false).2.2 =
        "Pages to monitor updated." ∧
      regLookup
          (handleSelectMenu regC9 regC9 "guild1" (.selectPages ["pg"]) false).1
          "guild1" =
        some ⟨["pg"], [], none⟩ ∧
      (handleSelectMenu regC9 regC9 "guild1" (.selectPages ["pg"]) false).2.1 =
        regC9 := by
  refine ⟨?_, ?_, ?_, ?_⟩ <;> decide

/-- Claim C9 (amended): every registry mutation updates the in-memory state
and attempts to persist the full registry before the handler completes; on
persistence failure the in-memory state is still updated, but no
PersistenceError surfaces — the write error is swallowed and the caller
observes exactly the reply of a successful run, while the store keeps its
previous content (on success the store holds the full new registry). -/
theorem settings_mutation_behaviour (reg store : List (String × TenantConfig))
    (g : String) (a : MenuAction) :
    regLookup (handleSelectMenu reg store g a false).1 g =
        some (applyMenu ((regLookup reg g).getD emptyConfig) a).1 ∧
      (handleSelectMenu reg store g a false).1 =
        (handleSelectMenu reg store g a true).1 ∧
      (handleSelectMenu reg store g a false).2.2 =
        (handleSelectMenu reg store g a true).2.2 ∧
      (handleSelectMenu reg store g a false).2.1 = store ∧
      (handleSelectMenu reg store g a true).2.1 =
        (handleSelectMenu reg store g a true).1 := by
  refine ⟨?_, rfl, rfl, rfl, rfl⟩
  simp only [handleSelectMenu]
  exact regLookup_write_self reg g _

/-! ## Command-name generation -/

theorem digitChar_toNat (d : Nat) (hd : d < 10) : (digitChar d).toNat = 48 + d := by
  interval_cases d <;> decide

theorem fromDigitsRev_toDigitsRev (n : Nat) :
    fromDigitsRev (toDigitsRev n) = n := by
  induction n using toDigitsRev.induct with
  | case1 n h =>
      rw [toDigitsRev, dif_pos h]
      simp [fromDigitsRev, digitChar_toNat n h]
  | case2 n h ih =>
      rw [toDigitsRev, dif_neg h]
      simp only [fromDigitsRev, ih]
      rw [digitChar_toNat (n % 10) (Nat.mod_lt n (by omega))]
      omega

theorem toDigitsRev_inj {m n : Nat} (h : toDigitsRev m = toDigitsRev n) :
    m = n := by
  have := fromDigitsRev_toDigitsRev m
  rw [h, fromDigitsRev_toDigitsRev] at this
  omega

theorem natDigits_inj {m n : Nat} (h : natDigits m = natDigits n) : m = n :=
  toDigitsRev_inj (by
    have := congrArg List.reverse h
    simpa [natDigits] using this)

theorem toDigitsRev_digits (n : Nat) :
    ∀ c ∈ toDigitsRev n, c.isDigit = true := by
  induction n using toDigitsRev.induct with
  | case1 n h =>
      rw [toDigitsRev, dif_pos h]
      intro c hc
      simp only [List.mem_singleton] at hc
      subst hc
      interval_cases n <;> decide
  | case2 n h ih =>
      rw [toDigitsRev, dif_neg h]
      intro c hc
      rcases List.mem_cons.mp hc with hc1 | hc2
      · subst hc1
        have hm : n % 10 < 10 := Nat.mod_lt n (by omega)
        interval_cases hmod : n % 10 <;> simp_all <;> decide
      · exact ih c hc2

theorem toDigitsRev_length (n m : Nat) (hm : 1 ≤ m) (hn : n < 10 ^ m) :
    (toDigitsRev n).length ≤ m := by
  induction n using toDigitsRev.induct generalizing m with
  | case1 n h =>
      rw [toDigitsRev, dif_pos h]
      simpa using hm
  | case2 n h ih =>
      rw [toDigitsRev, dif_neg h]
      simp only [List.length_cons]
      have hm2 : 2 ≤ m := by
        by_contra hcon
        have hm1 : m = 1 := by omega
        subst hm1
        rw [pow_one] at hn
        omega
      have hdiv : n / 10 < 10 ^ (m - 1) := by
        rw [Nat.div_lt_iff_lt_mul (by omega)]
        calc n < 10 ^ m := hn
        _ = 10 ^ (m - 1) * 10 := by
              rw [← pow_succ]
              congr 1
              omega
      have := ih (m - 1) (by omega) hdiv
      omega

theorem takeWhile_all_append (p : Char → Bool) (b : Char) (hb : p b = false) :
    ∀ (A B : List Char), (∀ a ∈ A, p a = true) →
      (A ++ b :: B).takeWhile p = A := by
  intro A
  induction A with
  | nil =>
      intro B _
      simp [List.takeWhile, hb]
  | cons a A ih =>
      intro B hall
      have ha : p a = true := hall a (List.mem_cons_self a A)
      simp only [List.cons_append, List.takeWhile_cons, ha, if_true]
      rw [ih B (fun x hx => hall x (List.mem_cons_of_mem a hx))]

theorem reverse_append_cons (A D : List Char) (b : Char) :
    (A ++ b :: D).reverse = D.reverse ++ b :: A.reverse := by
  simp [List.reverse_append]

theorem suffixCandidate_inj (base : List Char) {k1 k2 : Nat}
    (h : suffixCandidate base k1 = suffixCandidate base k2) : k1 = k2 := by
  have hrev := congrArg List.reverse h
  rw [suffixCandidate, suffixCandidate, reverse_append_cons,
    reverse_append_cons] at hrev
  have hdig : ∀ k : Nat, ∀ c ∈ (natDigits k).reverse, c.isDigit = true := by
    intro k c hc
    rw [natDigits, List.reverse_reverse] at hc
    exact toDigitsRev_digits k c hc
  have hu : ('_').isDigit = false := by decide
  have h1 := takeWhile_all_append Char.isDigit '_' hu
    (natDigits k1).reverse
    (sliceTo base (32 - (1 + (natDigits k1).length : Int))).reverse
    (hdig k1)
  have h2 := takeWhile_all_append Char.isDigit '_' hu
    (natDigits k2).reverse
    (sliceTo base (32 - (1 + (natDigits k2).length : Int))).reverse
    (hdig k2)
  have hdd : (natDigits k1).reverse = (natDigits k2).reverse := by
    rw [← h1, ← h2, hrev]
  apply natDigits_inj
  have := congrArg List.reverse hdd
  simpa using this

theorem exists_fresh_among (used : List (List Char)) (base : List Char) (k : Nat) :
    ∃ j, j < used.length + 1 ∧ suffixCandidate base (k + j) ∉ used := by
  by_contra hcon
  push_neg at hcon
  have hinj : Function.Injective (fun j : Nat => suffixCandidate base (k + j)) := by
    intro a b hab
    have := suffixCandidate_inj base hab
    omega
  have hsub : (Finset.range (used.length + 1)).image
      (fun j => suffixCandidate base (k + j)) ⊆ used.toFinset := by
    intro x hx
    rw [Finset.mem_image] at hx
    obtain ⟨j, hj, hxe⟩ := hx
    rw [List.mem_toFinset]
    rw [← hxe]
    exact hcon j (Finset.mem_range.mp hj)
  have hcard1 : ((Finset.range (used.length + 1)).image
      (fun j => suffixCandidate base (k + j))).card = used.length + 1 := by
    rw [Finset.card_image_of_injective _ hinj, Finset.card_range]
  have hcard2 := Finset.card_le_card hsub
  have hcard3 := List.toFinset_card_le used
  omega

theorem findFresh_spec (used : List (List Char)) (base : List Char) :
    ∀ (fuel k : Nat), (∃ j, j < fuel ∧ suffixCandidate base (k + j) ∉ used) →
      findFresh used base fuel k ∉ used ∧
        ∃ j, j < fuel ∧ findFresh used base fuel k = suffixCandidate base (k + j) := by
  intro fuel
  induction fuel with
  | zero =>
      intro k ⟨j, hj, _⟩
      omega
  | succ fuel ih =>
      intro k ⟨j, hj, hfree⟩
      by_cases hc : suffixCandidate base k ∈ used
      · have hred : findFresh used base (fuel + 1) k =
            findFresh used base fuel (k + 1) := by
          simp only [findFresh, if_pos hc]
        rw [hred]
        have hj0 : j ≠ 0 := by
          intro hj0
          subst hj0
          simp at hfree
          exact hfree hc
        obtain ⟨hf2, j2, hj2, he2⟩ := ih (k + 1)
          ⟨j - 1, by omega, by
            have harr : k + 1 + (j - 1) = k + j := by omega
            rw [harr]
            exact hfree⟩
        refine ⟨hf2, j2 + 1, by omega, ?_⟩
        rw [he2]
        congr 1
        omega
      · have hred : findFresh used base (fuel + 1) k = suffixCandidate base k := by
          simp only [findFresh, if_neg hc]
        rw [hred]
        exact ⟨hc, 0, by omega, by rw [Nat.add_zero]⟩

theorem suffixCandidate_ne_nil (base : List Char) (k : Nat) :
    suffixCandidate base k ≠ [] := by
  simp [suffixCandidate]

theorem suffixCandidate_length (base : List Char) (k : Nat) (hk : k < 10 ^ 16) :
    (suffixCandidate base k).length ≤ 32 := by
  have hd : (natDigits k).length ≤ 16 := by
    rw [natDigits, List.length_reverse]
    exact toDigitsRev_length k 16 (by omega) hk
  rw [suffixCandidate, List.length_append, List.length_cons]
  have he : (0 : Int) ≤ 32 - (1 + (natDigits k).length : Int) := by
    omega
  rw [sliceTo, if_pos he, List.length_take]
  have htn : ((32 - (1 + (natDigits k).length : Int))).toNat =
      32 - (1 + (natDigits k).length) := by
    omega
  omega

theorem pickName_spec (used : List (List Char)) (base : List Char)
    (hbase : base.length ≤ 32) (hlen : used.length + 1 < 10 ^ 16) :
    pickName used base ∉ used ∧ pickName used base ≠ [] ∧
      (pickName used base).length ≤ 32 := by
  rw [pickName]
  by_cases hb : base ∉ used ∧ base ≠ []
  · rw [if_pos hb]
    exact ⟨hb.1, hb.2, hbase⟩
  · rw [if_neg hb]
    obtain ⟨hf, j, hj, he⟩ := findFresh_spec used base (used.length + 1) 1
      (by
        obtain ⟨j, hj, hfree⟩ := exists_fresh_among used base 1
        exact ⟨j, hj, hfree⟩)
    refine ⟨hf, ?_, ?_⟩
    · rw [he]
      exact suffixCandidate_ne_nil base (1 + j)
    · rw [he]
      exact suffixCandidate_length base (1 + j) (by omega)

theorem normalizeDropdownName_length (name : List Char) :
    (normalizeDropdownName name).length ≤ 32 := by
  rw [normalizeDropdownName]
  simp [List.length_take]

theorem genCommandsAux_facts :
    ∀ (items : List (List Char)) (used : List (List Char))
      (mapping : List (List Char × List Char)),
      used.length + items.length + 1 < 10 ^ 16 →
      (∀ n ∈ mapping.map Prod.fst, n ∈ used) →
      (mapping.map Prod.fst).Nodup →
      (∀ e ∈ mapping, e.1 ≠ [] ∧ e.1.length ≤ 32) →
      ((genCommandsAux used mapping items).map Prod.fst).Nodup ∧
        (∀ e ∈ genCommandsAux used mapping items, e.1 ≠ [] ∧ e.1.length ≤ 32) ∧
        (genCommandsAux used mapping items).map Prod.snd =
          mapping.map Prod.snd ++ items := by
  intro items
  induction items with
  | nil =>
      intro used mapping _ _ hnd hprops
      exact ⟨hnd, hprops, by simp [genCommandsAux]⟩
  | cons item rest ih =>
      intro used mapping hlen hsub hnd hprops
      obtain ⟨hfresh, hne, hle⟩ := pickName_spec used (normalizeDropdownName item)
        (normalizeDropdownName_length item) (by simp at hlen ⊢; omega)
      have hred : genCommandsAux used mapping (item :: rest) =
          genCommandsAux (used ++ [pickName used (normalizeDropdownName item)])
            (mapping ++ [(pickName used (normalizeDropdownName item), item)])
            rest := by
        simp only [genCommandsAux]
      rw [hred]
      obtain ⟨h1, h2, h3⟩ := ih
        (used ++ [pickName used (normalizeDropdownName item)])
        (mapping ++ [(pickName used (normalizeDropdownName item), item)])
        (by simp at hlen ⊢; omega)
        (by
          intro n hn
          simp only [List.map_append, List.mem_append] at hn
          rcases hn with hn1 | hn2
          · exact List.mem_append_left _ (hsub n hn1)
          · simp at hn2
            simp [hn2])
        (by
          rw [List.map_append]
          apply List.Nodup.append hnd (by simp)
          intro x hx1 hx2
          simp at hx2
          subst hx2
          exact hfresh (hsub _ hx1))
        (by
          intro e he
          rcases List.mem_append.mp he with he1 | he2
          · exact hprops e he1
          · simp at he2
            rw [he2]
            exact ⟨hne, hle⟩)
      refine ⟨h1, h2, ?_⟩
      rw [h3]
      simp

/-- Claim C10: for a finite item list (of fewer than 2 ^ 53 labels, the
regime where JavaScript integers are exact; the search for each name is
proved to need at most usedNames.size + 1 probes, which is what makes the
generation terminate), the generated command names are pairwise distinct,
non-empty, at most 32 characters long, and commandNameToDropdownItem maps
the names back to the originating labels in order, one label per name. -/
theorem gen_command_names (items : List (List Char))
    (hlen : items.length < 2 ^ 53) :
    ((genCommands items).map Prod.fst).Nodup ∧
      (∀ e ∈ genCommands items, e.1 ≠ [] ∧ e.1.length ≤ 32) ∧
      (genCommands items).map Prod.snd = items := by
  have hlen2 : items.length + 1 < 10 ^ 16 := by
    have h53 : (2 : Nat) ^ 53 < 10 ^ 16 := by norm_num
    omega
  obtain ⟨h1, h2, h3⟩ := genCommandsAux_facts items [] []
    (by simpa using hlen2) (by simp) (by simp) (by simp)
  exact ⟨h1, h2, by simpa using h3⟩

theorem gen_command_names_witness :
    ((genCommands ["Duck Page".toList, "duck-page".toList, "??".toList]).map
        Prod.fst).Nodup ∧
      (∀ e ∈ genCommands ["Duck Page".toList, "duck-page".toList, "??".toList],
        e.1 ≠ [] ∧ e.1.length ≤ 32) ∧
      (genCommands ["Duck Page".toList, "duck-page".toList, "??".toList]).map
          Prod.snd =
        ["Duck Page".toList, "duck-page".toList, "??".toList] :=
  gen_command_names ["Duck Page".toList, "duck-page".toList, "??".toList]
    (by norm_num)
